import Mathlib

/-!
Shallow embedding of `src/main.py`: a lexer (`tokenize`), a recursive-descent
parser/evaluator (`Parser`), and an XML serializer (`to_xml` / `value_to_xml`).

Modelling conventions:
* Text is `List Char`; token literals are kept as `List Char`.
* Python `float` values are modelled as exact rationals (`ℚ`); every numeric
  literal in the verified inputs is exactly representable in binary float64 and
  all arithmetic performed on them (sums, differences, abs, min of such values)
  is exact, so no rounding behaviour is observable on the properties below.
* The regex character classes are modelled for ASCII input (`\d` as `0-9`,
  whitespace as the six ASCII whitespace characters); `[a-z]` is ASCII in the
  source as well.
* Python exceptions are modelled by the `Err` type below, one constructor per
  exception class the interpreter can raise (messages are dropped):
  `SyntaxError`, `NameError`, `TypeError`, `IndexError`, `ValueError`, and
  `AttributeError` (the latter arises from `None.type` when `peek()` returns
  `None`).  Recursive functions take a fuel argument; `Err.fuelErr` marks fuel
  exhaustion and is unreachable for the generous fuel supplied by the
  top-level entry points.
-/

namespace Dz

/-- Python exception kinds raised by the interpreter (messages dropped). -/
inductive Err where
  | syntaxError : Err
  | nameError : List Char → Err
  | typeError : Err
  | indexError : Err
  | valueError : Err
  | attrError : Err
  | fuelErr : Err
  deriving DecidableEq, Repr

/-- Token kinds, one per named group of `TOKEN_REGEX`, in group order. -/
inductive TokType where
  | NUMBER | ASSIGN | FUNC | NAME
  | LPAREN | RPAREN | LBRACK | RBRACK
  | COLON | COMMA | SEMICOLON | OP
  deriving DecidableEq, Repr

/-- A token: kind plus matched literal (`Token(k, v)` in the source). -/
structure Token where
  typ : TokType
  val : List Char
  deriving DecidableEq, Repr

/-- ASCII decimal digit (the `\d` of `TOKEN_REGEX` on ASCII input). -/
def isDigitC (c : Char) : Bool := 48 ≤ c.toNat && c.toNat ≤ 57

/-- ASCII lowercase letter (the `[a-z]` of `TOKEN_REGEX`). -/
def isLowerAZ (c : Char) : Bool := 97 ≤ c.toNat && c.toNat ≤ 122

/-- ASCII whitespace as recognised by Python's `str.isspace`. -/
def isSpaceC (c : Char) : Bool :=
  c.toNat == 32 || (9 ≤ c.toNat && c.toNat ≤ 13)

/-- The number-body alternation `\d+\.\d*|\.\d+|\d+`, tried in this order with
greedy digit runs, returning the matched literal and the rest. -/
def matchNumBody (s : List Char) : Option (List Char × List Char) :=
  let ds := s.takeWhile isDigitC
  let r := s.dropWhile isDigitC
  if ds.isEmpty then
    match s with
    | '.' :: r2 =>
        let fs := r2.takeWhile isDigitC
        if fs.isEmpty then none
        else some ('.' :: fs, r2.dropWhile isDigitC)
    | _ => none
  else
    match r with
    | '.' :: r2 =>
        let fs := r2.takeWhile isDigitC
        some (ds ++ '.' :: fs, r2.dropWhile isDigitC)
    | _ => some (ds, r)

/-- The optional exponent suffix `(?:[eE][+-]?\d+)?`: returns the matched
literal (possibly empty) and the rest, with the regex backtracking on a sign
not followed by digits. -/
def matchExp (s : List Char) : List Char × List Char :=
  match s with
  | c :: r =>
    if c = 'e' ∨ c = 'E' then
      match r with
      | c2 :: r2 =>
        if c2 = '+' ∨ c2 = '-' then
          if (r2.takeWhile isDigitC).isEmpty then ([], s)
          else (c :: c2 :: r2.takeWhile isDigitC, r2.dropWhile isDigitC)
        else
          if (r.takeWhile isDigitC).isEmpty then ([], s)
          else (c :: r.takeWhile isDigitC, r.dropWhile isDigitC)
      | [] => ([], s)
    else ([], s)
  | [] => ([], s)

/-- The `NUMBER` pattern `-?(?:\d+\.\d*|\.\d+|\d+)(?:[eE][+-]?\d+)?`.
When a leading `-` is present but no number body follows it, the regex
backtracks on `-?`, and the body then fails on `-` itself, so the whole
pattern fails. -/
def matchNumber (s : List Char) : Option (List Char × List Char) :=
  match s with
  | '-' :: u =>
    match matchNumBody u with
    | some (b, r1) =>
        let (e, r2) := matchExp r1
        some ('-' :: (b ++ e), r2)
    | none => none
  | _ =>
    match matchNumBody s with
    | some (b, r1) =>
        let (e, r2) := matchExp r1
        some (b ++ e, r2)
    | none => none

/-- Literal prefix test, recursing on the literal so that it reduces as soon
as the input supplies the literal's characters. -/
def matchLit : List Char → List Char → Bool
  | [], _ => true
  | p :: ps, s =>
    match s with
    | [] => false
    | c :: cs => p = c && matchLit ps cs

/-- Match a literal string at the start of the input. -/
def matchPre (pre s : List Char) : Option (List Char) :=
  if matchLit pre s then some (s.drop pre.length) else none

/-- One step of `TOKEN_REGEX.match(text, pos)`: alternatives tried in the
named-group order of the source regex, first match wins. -/
def matchToken (s : List Char) : Option (TokType × List Char × List Char) :=
  match matchNumber s with
  | some (l, r) => some (.NUMBER, l, r)
  | none =>
  match matchPre [':', '='] s with
  | some r => some (.ASSIGN, [':', '='], r)
  | none =>
  match matchPre ['a', 'b', 's'] s with
  | some r => some (.FUNC, ['a', 'b', 's'], r)
  | none =>
  match matchPre ['m', 'i', 'n'] s with
  | some r => some (.FUNC, ['m', 'i', 'n'], r)
  | none =>
  if (s.takeWhile isLowerAZ).isEmpty then
    match s with
    | c :: r =>
      if c = '(' then some (.LPAREN, ['('], r)
      else if c = ')' then some (.RPAREN, [')'], r)
      else if c = '[' then some (.LBRACK, ['['], r)
      else if c = ']' then some (.RBRACK, [']'], r)
      else if c = ':' then some (.COLON, [':'], r)
      else if c = ',' then some (.COMMA, [','], r)
      else if c = ';' then some (.SEMICOLON, [';'], r)
      else if c = '+' then some (.OP, ['+'], r)
      else if c = '-' then some (.OP, ['-'], r)
      else none
    | [] => none
  else some (.NAME, s.takeWhile isLowerAZ, s.dropWhile isLowerAZ)

/-- The `tokenize` scan: skip whitespace, else match one token; an
unrecognised character raises `SyntaxError` (the source's own choice of
exception for lexical failure).  Fuel decreases once per consumed character
or skipped space, so `s.length` fuel always suffices. -/
def tokenizeAux : Nat → List Char → Except Err (List Token)
  | _, [] => .ok []
  | 0, _ :: _ => .error .fuelErr
  | fuel + 1, c :: cs =>
    if isSpaceC c then tokenizeAux fuel cs
    else
      match matchToken (c :: cs) with
      | none => .error .syntaxError
      | some (t, l, r) =>
        match tokenizeAux fuel r with
        | .error e => .error e
        | .ok rest => .ok (⟨t, l⟩ :: rest)

/-- `tokenize(text)` from the source. -/
def tokenize (s : List Char) : Except Err (List Token) :=
  tokenizeAux s.length s

/-- A parsed value: a float (modelled as an exact rational) or a Python dict
(modelled as an insertion-ordered association list with unique keys). -/
inductive Value where
  | num : ℚ → Value
  | dict : List (List Char × Value) → Value

/-- The flat binding environment `self.env` (a Python dict). -/
abbrev Env := List (List Char × Value)

/-- Dict lookup `env[name]` / membership `name in env`. -/
def envLookup : Env → List Char → Option Value
  | [], _ => none
  | (k, v) :: rest, n => if k = n then some v else envLookup rest n

/-- Python-dict assignment `d[k] = v`: overwrite in place if the key exists
(keeping its first-insertion position), else append at the end. -/
def envInsert : Env → List Char → Value → Env
  | [], n, v => [(n, v)]
  | (k, w) :: rest, n, v =>
    if k = n then (k, v) :: rest else (k, w) :: envInsert rest n v

/-- Value of a digit run read in base 10. -/
def digitsVal (ds : List Char) : Nat :=
  ds.foldl (fun a c => 10 * a + (c.toNat - 48)) 0

/-- Python `float` applied to an unsigned `NUMBER` literal, as an exact
rational: integer part, optional fraction, optional scientific exponent. -/
def strToRatPos (t : List Char) : ℚ :=
  let ip := t.takeWhile isDigitC
  let r1 := t.dropWhile isDigitC
  let fp := match r1 with
    | '.' :: u => u.takeWhile isDigitC
    | _ => ([] : List Char)
  let r2 := match r1 with
    | '.' :: u => u.dropWhile isDigitC
    | _ => r1
  let base : ℚ := (digitsVal ip : ℚ) + (digitsVal fp : ℚ) / (10 : ℚ) ^ fp.length
  match r2 with
  | c :: u =>
    if c = 'e' ∨ c = 'E' then
      match u with
      | '+' :: v => base * (10 : ℚ) ^ digitsVal (v.takeWhile isDigitC)
      | '-' :: v => base / (10 : ℚ) ^ digitsVal (v.takeWhile isDigitC)
      | v => base * (10 : ℚ) ^ digitsVal (v.takeWhile isDigitC)
    else base
  | [] => base

/-- Python `float` applied to a `NUMBER` literal (`float(tok.value)`). -/
def strToRat (l : List Char) : ℚ :=
  match l with
  | '-' :: t => -(strToRatPos t)
  | t => strToRatPos t

/-- `Parser.consume`: `SyntaxError` on end of input or on a wrong kind. -/
def consume (tokens : List Token) (pos : Nat) (t : TokType) :
    Except Err (Token × Nat) :=
  match tokens.get? pos with
  | none => .error .syntaxError
  | some tok => if tok.typ = t then .ok (tok, pos + 1) else .error .syntaxError

/-- A `Value` argument used as a float: a dict raises `TypeError`. -/
def asNum : Value → Except Err ℚ
  | .num q => .ok q
  | .dict _ => .error .typeError

/-- Python `sum` over the argument list: starts from `0`, `TypeError` when a
dict is added. -/
def sumGo : ℚ → List Value → Except Err ℚ
  | acc, [] => .ok acc
  | acc, .num q :: rest => sumGo (acc + q) rest
  | _, .dict _ :: _ => .error .typeError

def sumVals (args : List Value) : Except Err ℚ := sumGo 0 args

/-- Python `min` scan `if x < result: result = x`; comparison with a dict
raises `TypeError`. -/
def minGo : Value → List Value → Except Err Value
  | cur, [] => .ok cur
  | cur, w :: ws =>
    match w, cur with
    | .num a, .num b => minGo (if a < b then .num a else .num b) ws
    | _, _ => .error .typeError

/-- Python `min(args)`: `ValueError` on an empty sequence. -/
def minVals : List Value → Except Err Value
  | [] => .error .valueError
  | v :: vs => minGo v vs

/-- `Parser.eval_expr`: the operator table, with the Python failure modes of
each operation (`args[0]` on an empty list is `IndexError`, `min` of an empty
sequence is `ValueError`, arithmetic on a dict is `TypeError`). -/
def evalExpr (op : List Char) (args : List Value) : Except Err Value :=
  if op = ['+'] then
    match sumVals args with
    | .error e => .error e
    | .ok q => .ok (.num q)
  else if op = ['-'] then
    match args with
    | [] => .error .indexError
    | a :: rest =>
      match sumVals rest with
      | .error e => .error e
      | .ok s =>
        match asNum a with
        | .error e => .error e
        | .ok x => .ok (.num (x - s))
  else if op = ['a', 'b', 's'] then
    match args with
    | [] => .error .indexError
    | a :: _ =>
      match asNum a with
      | .error e => .error e
      | .ok x => .ok (.num |x|)
  else if op = ['m', 'i', 'n'] then minVals args
  else .error .syntaxError

mutual

/-- `Parser.parse_value`.  `tok = self.peek()` followed by `tok.type` raises
`AttributeError` at end of input; the two-token lookahead
`self.tokens[self.pos + 1]` raises `IndexError` when `LParen` is the last
token. -/
def parseValue : Nat → List Token → Nat → Env → Except Err (Value × Nat)
  | 0, _, _, _ => .error .fuelErr
  | fuel + 1, tokens, pos, env =>
    match tokens.get? pos with
    | none => .error .attrError
    | some tok =>
      match tok.typ with
      | .NUMBER => .ok (.num (strToRat tok.val), pos + 1)
      | .NAME =>
        match envLookup env tok.val with
        | none => .error (.nameError tok.val)
        | some v => .ok (v, pos + 1)
      | .LPAREN =>
        match tokens.get? (pos + 1) with
        | none => .error .indexError
        | some t2 =>
          if t2.typ = .LBRACK then parseDict fuel tokens pos env
          else parseExpr fuel tokens pos env
      | _ => .error .syntaxError
  termination_by structural fuel _tokens _pos _env => fuel

/-- `Parser.parse_dict`. -/
def parseDict : Nat → List Token → Nat → Env → Except Err (Value × Nat)
  | 0, _, _, _ => .error .fuelErr
  | fuel + 1, tokens, pos, env => do
    let (_, p1) ← consume tokens pos .LPAREN
    let (_, p2) ← consume tokens p1 .LBRACK
    let (d, p3) ← parseDictLoop fuel tokens p2 env []
    let (_, p4) ← consume tokens p3 .RBRACK
    let (_, p5) ← consume tokens p4 .RPAREN
    .ok (.dict d, p5)
  termination_by structural fuel _tokens _pos _env => fuel

/-- The `while self.peek().type != "RBRACK"` loop of `parse_dict`; both peeks
raise `AttributeError` when the token sequence has ended. -/
def parseDictLoop : Nat → List Token → Nat → Env → List (List Char × Value) →
    Except Err (List (List Char × Value) × Nat)
  | 0, _, _, _, _ => .error .fuelErr
  | fuel + 1, tokens, pos, env, d =>
    match tokens.get? pos with
    | none => .error .attrError
    | some tok =>
      if tok.typ = .RBRACK then .ok (d, pos)
      else do
        let (keyTok, p1) ← consume tokens pos .NAME
        let (_, p2) ← consume tokens p1 .COLON
        let (v, p3) ← parseValue fuel tokens p2 env
        let d' := envInsert d keyTok.val v
        match tokens.get? p3 with
        | none => .error .attrError
        | some t2 =>
          if t2.typ = .COMMA then do
            let (_, p4) ← consume tokens p3 .COMMA
            parseDictLoop fuel tokens p4 env d'
          else parseDictLoop fuel tokens p3 env d'
  termination_by structural fuel _tokens _pos _env _d => fuel

/-- `Parser.parse_expr`. -/
def parseExpr : Nat → List Token → Nat → Env → Except Err (Value × Nat)
  | 0, _, _, _ => .error .fuelErr
  | fuel + 1, tokens, pos, env => do
    let (_, p1) ← consume tokens pos .LPAREN
    match tokens.get? p1 with
    | none => .error .attrError
    | some tok =>
      if tok.typ = .OP then do
        let (opTok, p2) ← consume tokens p1 .OP
        let (args, p3) ← parseExprArgs fuel tokens p2 env []
        let (_, p4) ← consume tokens p3 .RPAREN
        let v ← evalExpr opTok.val args
        .ok (v, p4)
      else if tok.typ = .FUNC then do
        let (opTok, p2) ← consume tokens p1 .FUNC
        let (args, p3) ← parseExprArgs fuel tokens p2 env []
        let (_, p4) ← consume tokens p3 .RPAREN
        let v ← evalExpr opTok.val args
        .ok (v, p4)
      else .error .syntaxError
  termination_by structural fuel _tokens _pos _env => fuel

/-- The `while self.peek().type != "RPAREN"` argument loop of `parse_expr`;
the peek raises `AttributeError` when the token sequence has ended. -/
def parseExprArgs : Nat → List Token → Nat → Env → List Value →
    Except Err (List Value × Nat)
  | 0, _, _, _, _ => .error .fuelErr
  | fuel + 1, tokens, pos, env, args =>
    match tokens.get? pos with
    | none => .error .attrError
    | some tok =>
      if tok.typ = .RPAREN then .ok (args, pos)
      else do
        let (v, p1) ← parseValue fuel tokens pos env
        parseExprArgs fuel tokens p1 env (args ++ [v])
  termination_by structural fuel _tokens _pos _env _args => fuel

end

/-- `Parser.parse_assignment`: the binding is added to the environment only
after the whole statement, semicolon included, has been parsed. -/
def parseAssignment (fuel : Nat) (tokens : List Token) (pos : Nat)
    (env : Env) : Except Err (Env × Nat) := do
  let (nameTok, p1) ← consume tokens pos .NAME
  let (_, p2) ← consume tokens p1 .ASSIGN
  let (v, p3) ← parseValue fuel tokens p2 env
  let (_, p4) ← consume tokens p3 .SEMICOLON
  .ok (envInsert env nameTok.val v, p4)

/-- The `while self.peek()` loop of `Parser.parse`. -/
def parseLoop : Nat → List Token → Nat → Env → Except Err Env
  | 0, _, _, _ => .error .fuelErr
  | fuel + 1, tokens, pos, env =>
    match tokens.get? pos with
    | none => .ok env
    | some _ => do
      let (env', p1) ← parseAssignment fuel tokens pos env
      parseLoop fuel tokens p1 env'

/-- `Parser(tokens).parse()`.  The fuel bound exceeds the recursion depth of
any run of the parser on `tokens` (each nesting level consumes tokens). -/
def parseProgram (tokens : List Token) : Except Err Env :=
  parseLoop (3 * tokens.length + 8) tokens 0 []

/-- The pipeline of `main` up to the parsed environment:
`Parser(tokenize(text)).parse()`. -/
def compileText (s : String) : Except Err Env :=
  match tokenize s.toList with
  | .error e => .error e
  | .ok ts => parseProgram ts

/-- An XML element as built by `xml.etree.ElementTree`: tag, attributes in
assignment order, optional text, children. -/
inductive XmlElem where
  | mk : String → List (String × String) → Option String → List XmlElem → XmlElem

/-- The attribute list of an element. -/
def XmlElem.attrs : XmlElem → List (String × String)
  | .mk _ a _ _ => a

/-- The child elements of an element. -/
def XmlElem.children : XmlElem → List XmlElem
  | .mk _ _ _ c => c

/-- `str` of a float value for the serializer's text content.  Python's float
formatting (`str(1.0) = "1.0"`) is not modelled in detail; no verified
property depends on the text content. -/
def floatStr (q : ℚ) : String := toString q

mutual

/-- `value_to_xml`: an `entry` element with a `name` attribute, then a `type`
attribute that is `"dict"` for a dict (with recursive children) and
`"number"` for a number (with the value as text). -/
def value_to_xml (name : List Char) : Value → XmlElem
  | .num q => .mk "entry" [("name", ⟨name⟩), ("type", "number")] (some (floatStr q)) []
  | .dict entries => .mk "entry" [("name", ⟨name⟩), ("type", "dict")] none (entriesXml entries)

def entriesXml : List (List Char × Value) → List XmlElem
  | [] => []
  | (k, v) :: rest => value_to_xml k v :: entriesXml rest

end

/-- `to_xml`: the root `config` element over the environment. -/
def to_xml (env : Env) : XmlElem :=
  .mk "config" [] none (entriesXml env)

/-! Decidable equality for the result types, so that concrete runs of the
interpreter can be checked by `decide`. -/

mutual

def Value.decEq : (a b : Value) → Decidable (a = b)
  | .num p, .num q =>
    if h : p = q then isTrue (by rw [h])
    else isFalse (fun he => by cases he; exact h rfl)
  | .num _, .dict _ => isFalse (fun he => by cases he)
  | .dict _, .num _ => isFalse (fun he => by cases he)
  | .dict xs, .dict ys =>
    match Value.entsDecEq xs ys with
    | isTrue h => isTrue (by rw [h])
    | isFalse h => isFalse (fun he => by cases he; exact h rfl)

def Value.entsDecEq : (xs ys : List (List Char × Value)) → Decidable (xs = ys)
  | [], [] => isTrue rfl
  | [], _ :: _ => isFalse (fun he => by cases he)
  | _ :: _, [] => isFalse (fun he => by cases he)
  | (k, v) :: xs, (k2, v2) :: ys =>
    if h0 : k = k2 then
      match Value.decEq v v2 with
      | isFalse h => isFalse (fun he => by cases he; exact h rfl)
      | isTrue h2 =>
        match Value.entsDecEq xs ys with
        | isFalse h => isFalse (fun he => by cases he; exact h rfl)
        | isTrue h3 => isTrue (by rw [h0, h2, h3])
    else isFalse (fun he => by cases he; exact h0 rfl)

end

instance : DecidableEq Value := Value.decEq

instance {ε α : Type} [DecidableEq ε] [DecidableEq α] :
    DecidableEq (Except ε α) := fun
  | .error a, .error b =>
    if h : a = b then isTrue (by rw [h])
    else isFalse (fun he => by cases he; exact h rfl)
  | .error _, .ok _ => isFalse (fun he => by cases he)
  | .ok _, .error _ => isFalse (fun he => by cases he)
  | .ok a, .ok b =>
    if h : a = b then isTrue (by rw [h])
    else isFalse (fun he => by cases he; exact h rfl)

/- The Batteries `Rat` operations are `@[irreducible]`, which blocks `decide`
on concrete interpreter runs; restore the default reducibility for them for
the remainder of this development. -/
attribute [local semireducible] Rat.add Rat.sub Rat.mul Rat.inv

/-! Arithmetic of `eval_expr` on all-number argument lists. -/

theorem sumGo_nums (l : List ℚ) : ∀ acc : ℚ,
    sumGo acc (l.map Value.num) = .ok (acc + l.sum) := by
  induction l with
  | nil => intro acc; simp [sumGo]
  | cons q qs ih =>
    intro acc
    simp only [List.map_cons, sumGo, ih, List.sum_cons]
    rw [add_assoc]

theorem ite_num_min (a q : ℚ) :
    (if a < q then Value.num a else Value.num q) = Value.num (min q a) := by
  rcases le_or_lt q a with h | h
  · rw [if_neg (not_lt.2 h), min_eq_left h]
  · rw [if_pos h, min_eq_right h.le]

theorem minGo_nums (qs : List ℚ) : ∀ q : ℚ,
    minGo (Value.num q) (qs.map Value.num) = .ok (.num (qs.foldl min q)) := by
  induction qs with
  | nil => intro q; rfl
  | cons a rest ih =>
    intro q
    simp only [List.map_cons, minGo, List.foldl_cons]
    rw [ite_num_min, ih]

theorem foldl_min_le_init (qs : List ℚ) : ∀ q : ℚ, qs.foldl min q ≤ q := by
  induction qs with
  | nil => intro q; exact le_refl q
  | cons a rest ih =>
    intro q
    exact le_trans (ih (min q a)) (min_le_left q a)

theorem foldl_min_le_mem (qs : List ℚ) :
    ∀ (q x : ℚ), x ∈ qs → qs.foldl min q ≤ x := by
  induction qs with
  | nil => intro q x hx; cases hx
  | cons a rest ih =>
    intro q x hx
    rcases List.mem_cons.1 hx with h | h
    · subst h
      exact le_trans (foldl_min_le_init rest (min q x)) (min_le_right q x)
    · exact ih (min q a) x h

theorem foldl_min_mem (qs : List ℚ) :
    ∀ q : ℚ, qs.foldl min q = q ∨ qs.foldl min q ∈ qs := by
  induction qs with
  | nil => intro q; exact Or.inl rfl
  | cons a rest ih =>
    intro q
    rcases ih (min q a) with h | h
    · rcases min_choice q a with hm | hm
      · exact Or.inl (by rw [List.foldl_cons, h, hm])
      · exact Or.inr (by rw [List.foldl_cons, h, hm]; exact List.mem_cons_self a rest)
    · exact Or.inr (List.mem_cons_of_mem a h)

theorem evalExpr_plus_nums (q : ℚ) (qs : List ℚ) :
    evalExpr ['+'] ((q :: qs).map Value.num) = .ok (.num ((q :: qs).sum)) := by
  have h := sumGo_nums (q :: qs) 0
  simp only [evalExpr, sumVals, h, zero_add, eq_self_iff_true, if_true]

theorem evalExpr_minus_nums (q : ℚ) (qs : List ℚ) :
    evalExpr ['-'] ((q :: qs).map Value.num) = .ok (.num (q - qs.sum)) := by
  have h := sumGo_nums qs 0
  simp only [evalExpr, sumVals, List.map_cons, h, zero_add, asNum,
    List.cons.injEq, Char.reduceEq, false_and, if_false, eq_self_iff_true,
    and_self, if_true]

theorem evalExpr_min_nums (q : ℚ) (qs : List ℚ) :
    evalExpr ['m', 'i', 'n'] ((q :: qs).map Value.num) =
      .ok (.num (qs.foldl min q)) := by
  have h := minGo_nums qs q
  simp only [evalExpr, minVals, List.map_cons, h, reduceCtorEq, reduceIte,
    List.cons.injEq, Char.reduceEq, false_and, and_false, if_false]

/-- C1: on all-number argument lists the operator table holds: `+` returns
the sum of the arguments, `-` returns the first argument minus the sum of
the rest (identity on a single argument), `min` returns the minimum of the
arguments (a lower bound that is one of them); and the parse-time
evaluations in concrete syntax give `(+ 1 2 3) = 6`, `(- 10 3 2) = 5`,
`(- 5) = 5`, `(min 4 2 9) = 2`, `(abs (- 7)) = 7`. -/
theorem C1_operator_table :
    (∀ (q : ℚ) (qs : List ℚ),
        evalExpr ['+'] ((q :: qs).map Value.num) = .ok (.num ((q :: qs).sum))) ∧
    (∀ (q : ℚ) (qs : List ℚ),
        evalExpr ['-'] ((q :: qs).map Value.num) = .ok (.num (q - qs.sum))) ∧
    (∀ q : ℚ, evalExpr ['-'] [Value.num q] = .ok (.num q)) ∧
    (∀ (q : ℚ) (qs : List ℚ),
        evalExpr ['m', 'i', 'n'] ((q :: qs).map Value.num) =
            .ok (.num (qs.foldl min q)) ∧
        qs.foldl min q ≤ q ∧ (∀ x ∈ qs, qs.foldl min q ≤ x) ∧
        (qs.foldl min q = q ∨ qs.foldl min q ∈ qs)) ∧
    compileText
        "a := (+ 1 2 3); b := (- 10 3 2); c := (- 5); d := (min 4 2 9); e := (abs (- 7));" =
      .ok [("a".toList, .num 6), ("b".toList, .num 5), ("c".toList, .num 5),
           ("d".toList, .num 2), ("e".toList, .num 7)] := by
  refine ⟨evalExpr_plus_nums, evalExpr_minus_nums, ?_, ?_, by decide⟩
  · intro q
    have h := evalExpr_minus_nums q []
    simpa using h
  · intro q qs
    exact ⟨evalExpr_min_nums q qs, foldl_min_le_init qs q,
      fun x hx => foldl_min_le_mem qs q x hx, foldl_min_mem qs q⟩

/-- C1 witness: the general parts instantiated at the spec's examples. -/
theorem C1_operator_table_witness :
    evalExpr ['m', 'i', 'n'] (((4 : ℚ) :: [2, 9]).map Value.num) =
        .ok (.num (([2, 9] : List ℚ).foldl min 4)) ∧
    ([2, 9] : List ℚ).foldl min 4 ≤ 2 ∧
    evalExpr ['-'] (((10 : ℚ) :: [3, 2]).map Value.num) =
        .ok (.num (10 - ([3, 2] : List ℚ).sum)) := by
  refine ⟨(C1_operator_table.2.2.2.1 4 [2, 9]).1,
    (C1_operator_table.2.2.2.1 4 [2, 9]).2.2.1 2 (by simp),
    C1_operator_table.2.1 10 [3, 2]⟩

/-! Use-after-definition semantics. -/

theorem parseValue_unbound_name (f : Nat) (tokens : List Token) (pos : Nat)
    (env : Env) (n : List Char) (h1 : tokens.get? pos = some ⟨.NAME, n⟩)
    (h2 : envLookup env n = none) :
    parseValue (f + 1) tokens pos env = .error (.nameError n) := by
  simp only [parseValue, h1, h2]

/-- C2: a `Name` token parsed as a Value while the name is not yet bound in
the environment fails with the undefined-name error carrying that name (the
environment is only extended by `parse_assignment` after the closing
semicolon, so a name is never visible inside its own defining statement);
concretely both the self-reference `a := a;` and the forward reference
`a := b; b := 1;` fail with that error. -/
theorem C2_use_before_definition :
    (∀ (f : Nat) (tokens : List Token) (pos : Nat) (env : Env) (n : List Char),
        tokens.get? pos = some ⟨.NAME, n⟩ → envLookup env n = none →
        parseValue (f + 1) tokens pos env = .error (.nameError n)) ∧
    compileText "a := a;" = .error (.nameError "a".toList) ∧
    compileText "a := b; b := 1;" = .error (.nameError "b".toList) :=
  ⟨parseValue_unbound_name, by decide, by decide⟩

/-- C2 witness: the general part instantiated at a concrete token list and
empty environment. -/
theorem C2_use_before_definition_witness :
    parseValue 1 [Token.mk .NAME ['x']] 0 [] = .error (.nameError ['x']) :=
  C2_use_before_definition.1 0 [Token.mk .NAME ['x']] 0 [] ['x'] (by decide)
    (by decide)

/-! Environment overwrite semantics. -/

theorem envLookup_insert_self (env : Env) (n : List Char) (v : Value) :
    envLookup (envInsert env n v) n = some v := by
  induction env with
  | nil => simp [envInsert, envLookup]
  | cons kv rest ih =>
    obtain ⟨k, w⟩ := kv
    by_cases h : k = n
    · simp [envInsert, envLookup, h]
    · simp [envInsert, envLookup, h, ih]

theorem envLookup_insert_ne (env : Env) (n m : List Char) (v : Value)
    (hne : m ≠ n) :
    envLookup (envInsert env n v) m = envLookup env m := by
  induction env with
  | nil => simp [envInsert, envLookup, Ne.symm hne]
  | cons kv rest ih =>
    obtain ⟨k, w⟩ := kv
    by_cases hk : k = n
    · subst hk
      simp [envInsert, envLookup, Ne.symm hne]
    · by_cases hm : k = m
      · simp [envInsert, envLookup, hk, hm, hne]
      · simp [envInsert, envLookup, hk, hm, ih]

theorem envInsert_keys (env : Env) (n : List Char) (v w : Value)
    (h : envLookup env n = some w) :
    (envInsert env n v).map Prod.fst = env.map Prod.fst := by
  induction env with
  | nil => simp [envLookup] at h
  | cons kv rest ih =>
    obtain ⟨k, w2⟩ := kv
    by_cases hk : k = n
    · simp [envInsert, hk]
    · simp only [envLookup, if_neg hk] at h
      simp [envInsert, hk, ih h]

/-- C8: re-assigning a bound name never errors and only changes that name's
value: the overwritten name reads back the new value, every other name reads
the same value as before, and the key order of the environment is unchanged
(the name keeps its first-insertion position); concretely
`a := 1; b := 2; a := 3;` yields the environment `a = 3, b = 2` with `a`
still first. -/
theorem C8_reassignment_frame :
    (∀ (env : Env) (n : List Char) (v : Value),
        envLookup (envInsert env n v) n = some v) ∧
    (∀ (env : Env) (n m : List Char) (v : Value), m ≠ n →
        envLookup (envInsert env n v) m = envLookup env m) ∧
    (∀ (env : Env) (n : List Char) (v w : Value), envLookup env n = some w →
        (envInsert env n v).map Prod.fst = env.map Prod.fst) ∧
    compileText "a := 1; b := 2; a := 3;" =
      .ok [("a".toList, .num 3), ("b".toList, .num 2)] :=
  ⟨envLookup_insert_self, fun env n m v h => envLookup_insert_ne env n m v h,
    envInsert_keys, by decide⟩

/-- C8 witness: the frame conditions instantiated on a concrete two-entry
environment. -/
theorem C8_reassignment_frame_witness :
    envLookup (envInsert [(['a'], Value.num 1), (['b'], Value.num 2)] ['a'] (Value.num 3)) ['b'] =
        envLookup [(['a'], Value.num 1), (['b'], Value.num 2)] ['b'] ∧
    (envInsert [(['a'], Value.num 1), (['b'], Value.num 2)] ['a'] (Value.num 3)).map Prod.fst =
        [(['a'], Value.num 1), (['b'], Value.num 2)].map Prod.fst :=
  ⟨C8_reassignment_frame.2.1 [(['a'], Value.num 1), (['b'], Value.num 2)] ['a'] ['b']
      (Value.num 3) (by decide),
    C8_reassignment_frame.2.2.1 [(['a'], Value.num 1), (['b'], Value.num 2)] ['a']
      (Value.num 3) (Value.num 1) (by decide)⟩

/-! Dictionary/expression disambiguation and serialization. -/

theorem parseValue_lparen_lookahead (f : Nat) (tokens : List Token)
    (pos : Nat) (env : Env) (lv : List Char) (t2 : Token)
    (h1 : tokens.get? pos = some ⟨.LPAREN, lv⟩)
    (h2 : tokens.get? (pos + 1) = some t2) :
    parseValue (f + 1) tokens pos env =
      if t2.typ = .LBRACK then parseDict f tokens pos env
      else parseExpr f tokens pos env := by
  simp only [parseValue, h1, h2]

/-- C3: the document with a nested dictionary parses to the nested mapping,
a Value opening with `LParen` is parsed as a dictionary exactly when the
token after the `LParen` is `LBracket` (else as an expression), and the
serialized entry for `y` carries the attribute `type = "dict"`. -/
theorem C3_nested_dict :
    compileText "a := ([x: 1, y: ([z: 2])]);" =
      .ok [("a".toList, .dict [("x".toList, .num 1),
        ("y".toList, .dict [("z".toList, .num 2)])])] ∧
    (value_to_xml "a".toList (.dict [("x".toList, .num 1),
        ("y".toList, .dict [("z".toList, .num 2)])])).children.map XmlElem.attrs =
      [[("name", "x"), ("type", "number")], [("name", "y"), ("type", "dict")]] ∧
    (∀ (f : Nat) (tokens : List Token) (pos : Nat) (env : Env) (lv : List Char)
        (t2 : Token), tokens.get? pos = some ⟨.LPAREN, lv⟩ →
        tokens.get? (pos + 1) = some t2 →
        parseValue (f + 1) tokens pos env =
          if t2.typ = .LBRACK then parseDict f tokens pos env
          else parseExpr f tokens pos env) :=
  ⟨by decide,
   by simp [value_to_xml, entriesXml, XmlElem.children, XmlElem.attrs],
   parseValue_lparen_lookahead⟩

/-- C3 witness: the lookahead disambiguation applied at concrete token
sequences, one dictionary-shaped and one expression-shaped. -/
theorem C3_nested_dict_witness :
    parseValue 1 [Token.mk .LPAREN ['('], Token.mk .LBRACK ['[']] 0 [] =
        parseDict 0 [Token.mk .LPAREN ['('], Token.mk .LBRACK ['[']] 0 [] ∧
    parseValue 1 [Token.mk .LPAREN ['('], Token.mk .OP ['+']] 0 [] =
        parseExpr 0 [Token.mk .LPAREN ['('], Token.mk .OP ['+']] 0 [] := by
  constructor
  · have h := C3_nested_dict.2.2 0 [Token.mk .LPAREN ['('], Token.mk .LBRACK ['[']]
      0 [] ['('] (Token.mk .LBRACK ['[']) (by decide) (by decide)
    simpa using h
  · have h := C3_nested_dict.2.2 0 [Token.mk .LPAREN ['('], Token.mk .OP ['+']]
      0 [] ['('] (Token.mk .OP ['+']) (by decide) (by decide)
    simpa using h

/-! Unclosed constructs, `abs` arity, and keyword prefix lexing. -/

/-- C5 counterexample: a dictionary whose `RBracket` is missing because the
token sequence ends is aborted with the attribute-error kind (`None.type`),
not with `SyntaxError` as the claim states. -/
theorem C5_counterexample :
    compileText "a := ([x: 1" = .error .attrError ∧
    Err.attrError ≠ Err.syntaxError := ⟨by decide, by decide⟩

theorem parseValue_end_of_tokens (f : Nat) (tokens : List Token) (pos : Nat)
    (env : Env) (h : tokens.get? pos = none) :
    parseValue (f + 1) tokens pos env = .error .attrError := by
  simp only [parseValue, h]

theorem parseDictLoop_end_of_tokens (f : Nat) (tokens : List Token)
    (pos : Nat) (env : Env) (d : List (List Char × Value))
    (h : tokens.get? pos = none) :
    parseDictLoop (f + 1) tokens pos env d = .error .attrError := by
  simp only [parseDictLoop, h]

theorem parseExprArgs_end_of_tokens (f : Nat) (tokens : List Token)
    (pos : Nat) (env : Env) (args : List Value)
    (h : tokens.get? pos = none) :
    parseExprArgs (f + 1) tokens pos env args = .error .attrError := by
  simp only [parseExprArgs, h]

theorem consume_end_of_tokens (tokens : List Token) (pos : Nat) (t : TokType)
    (h : tokens.get? pos = none) :
    consume tokens pos t = .error .syntaxError := by
  simp only [consume, h]

theorem parseLoop_propagates_error (f : Nat) (tokens : List Token)
    (pos : Nat) (env : Env) (tok : Token) (e : Err)
    (h1 : tokens.get? pos = some tok)
    (h2 : parseAssignment f tokens pos env = .error e) :
    parseLoop (f + 1) tokens pos env = .error e := by
  simp only [parseLoop, h1, h2]
  rfl

/-- C5 amended: whenever the parser needs a token and the token sequence has
already ended, the parse aborts with an error — for every token list,
position past the end, environment and fuel — with the kind depending on the
position: a Value position, a dictionary body (missing `RBracket`), or an
expression argument list (missing `RParen`) fails with the attribute error
from `self.peek().type` on `None`, while every `consume` site (the missing
`Semicolon` of an assignment, the missing `RParen` after a closed dictionary
body) fails with `SyntaxError`; a failed assignment statement propagates its
error through the parse loop, so no partial environment is ever returned;
the four concrete unclosed documents abort with exactly those kinds. -/
theorem C5_unclosed_constructs :
    (∀ (f : Nat) (tokens : List Token) (pos : Nat) (env : Env),
        tokens.get? pos = none →
        parseValue (f + 1) tokens pos env = .error .attrError) ∧
    (∀ (f : Nat) (tokens : List Token) (pos : Nat) (env : Env)
        (d : List (List Char × Value)), tokens.get? pos = none →
        parseDictLoop (f + 1) tokens pos env d = .error .attrError) ∧
    (∀ (f : Nat) (tokens : List Token) (pos : Nat) (env : Env)
        (args : List Value), tokens.get? pos = none →
        parseExprArgs (f + 1) tokens pos env args = .error .attrError) ∧
    (∀ (tokens : List Token) (pos : Nat) (t : TokType),
        tokens.get? pos = none →
        consume tokens pos t = .error .syntaxError) ∧
    (∀ (f : Nat) (tokens : List Token) (pos : Nat) (env : Env) (tok : Token)
        (e : Err), tokens.get? pos = some tok →
        parseAssignment f tokens pos env = .error e →
        parseLoop (f + 1) tokens pos env = .error e) ∧
    compileText "a := ([x: 1" = .error .attrError ∧
    compileText "a := (+ 1" = .error .attrError ∧
    compileText "a := ([x: 1]" = .error .syntaxError ∧
    compileText "a := 1" = .error .syntaxError :=
  ⟨parseValue_end_of_tokens, parseDictLoop_end_of_tokens,
   parseExprArgs_end_of_tokens, consume_end_of_tokens,
   parseLoop_propagates_error, by decide, by decide, by decide, by decide⟩

/-- C5 witness: the end-of-tokens and error-propagation parts applied at
concrete positions past the end of concrete token lists. -/
theorem C5_unclosed_constructs_witness :
    parseDictLoop 1 [Token.mk .LPAREN ['(']] 1 [] [] = .error .attrError ∧
    parseExprArgs 1 [] 0 [] [] = .error .attrError ∧
    consume [] 0 .SEMICOLON = .error .syntaxError ∧
    parseLoop 1 [Token.mk .NAME ['a']] 0 [] = .error .syntaxError :=
  ⟨C5_unclosed_constructs.2.1 0 [Token.mk .LPAREN ['(']] 1 [] [] (by decide),
   C5_unclosed_constructs.2.2.1 0 [] 0 [] [] (by decide),
   C5_unclosed_constructs.2.2.2.1 [] 0 .SEMICOLON (by decide),
   C5_unclosed_constructs.2.2.2.2.1 0 [Token.mk .NAME ['a']] 0 []
     (Token.mk .NAME ['a']) .syntaxError (by decide) (by decide)⟩

/-- C6 counterexample: evaluating `abs` applied to zero arguments aborts the
run with the index-error kind (Python `args[0]` on an empty list), not with
`SyntaxError` as the claim states. -/
theorem C6_counterexample :
    compileText "a := (abs);" = .error .indexError ∧
    Err.indexError ≠ Err.syntaxError := ⟨by decide, by decide⟩

/-- C6 amended: an `abs` expression with zero arguments aborts the parse
with the index-out-of-range error of `args[0]`, both at the evaluator and
through the whole pipeline. -/
theorem C6_abs_zero_args :
    evalExpr ['a', 'b', 's'] [] = .error .indexError ∧
    compileText "a := (abs);" = .error .indexError := ⟨by decide, by decide⟩

/-- C7 counterexample: the lexer splits the single lowercase run `absolute`
into a `Func` token `abs` followed by a `Name` token `olute`, not into one
`Name` token as the claim states. -/
theorem C7_counterexample :
    tokenize "absolute".toList =
      .ok [Token.mk .FUNC "abs".toList, Token.mk .NAME "olute".toList] ∧
    [Token.mk .FUNC "abs".toList, Token.mk .NAME "olute".toList] ≠
      [Token.mk .NAME "absolute".toList] := ⟨by decide, by decide⟩

/-- C7 amended: the `Func` alternative matches `abs` and `min` as plain
prefixes, with no whole-word boundary: any input starting with `abs` or
`min` lexes a `Func` token from those three characters and continues with
the remainder, so `absolute` lexes as `Func abs` then `Name olute` and
`minute` as `Func min` then `Name ute`. -/
theorem C7_func_prefix_match :
    (∀ cs : List Char,
        matchToken ('a' :: 'b' :: 's' :: cs) = some (.FUNC, ['a', 'b', 's'], cs)) ∧
    (∀ cs : List Char,
        matchToken ('m' :: 'i' :: 'n' :: cs) = some (.FUNC, ['m', 'i', 'n'], cs)) ∧
    tokenize "absolute".toList =
      .ok [Token.mk .FUNC "abs".toList, Token.mk .NAME "olute".toList] ∧
    tokenize "minute".toList =
      .ok [Token.mk .FUNC "min".toList, Token.mk .NAME "ute".toList] :=
  ⟨fun cs => rfl, fun cs => rfl, by decide, by decide⟩

/-! Zero-argument operator expressions. -/

theorem except_bind_ok {α β : Type} (a : α) (f : α → Except Err β) :
    (Except.ok a >>= f) = f a := rfl

theorem except_bind_error {α β : Type} (e : Err) (f : α → Except Err β) :
    ((Except.error e : Except Err α) >>= f : Except Err β) = .error e := rfl

theorem parseExpr_zero_args (f : Nat) (tokens : List Token) (pos : Nat)
    (env : Env) (lv ov rv : List Char)
    (h1 : tokens.get? pos = some ⟨.LPAREN, lv⟩)
    (h2 : tokens.get? (pos + 1) = some ⟨.OP, ov⟩)
    (h3 : tokens.get? (pos + 2) = some ⟨.RPAREN, rv⟩) :
    parseExpr (f + 2) tokens pos env =
      match evalExpr ov [] with
      | .error e => .error e
      | .ok v => .ok (v, pos + 3) := by
  show parseExpr (f + 1 + 1) tokens pos env = _
  simp only [parseExpr, parseExprArgs, consume, h1, h2, h3, eq_self_iff_true,
    if_true, except_bind_ok, reduceCtorEq, if_false]
  cases hev : evalExpr ov [] <;>
    simp [hev, except_bind_ok, except_bind_error]

/-- C10: the grammar performs no arity check before evaluation: an operator
followed immediately by `RParen` parses as an expression with an empty
argument list and goes straight to `eval_expr`; in particular `a := (+);`
succeeds and binds `a` to `0`, the sum of no arguments. -/
theorem C10_zero_arity_accepted :
    (∀ (f : Nat) (tokens : List Token) (pos : Nat) (env : Env)
        (lv ov rv : List Char),
        tokens.get? pos = some ⟨.LPAREN, lv⟩ →
        tokens.get? (pos + 1) = some ⟨.OP, ov⟩ →
        tokens.get? (pos + 2) = some ⟨.RPAREN, rv⟩ →
        parseExpr (f + 2) tokens pos env =
          match evalExpr ov [] with
          | .error e => .error e
          | .ok v => .ok (v, pos + 3)) ∧
    evalExpr ['+'] [] = .ok (.num 0) ∧
    compileText "a := (+);" = .ok [("a".toList, .num 0)] :=
  ⟨parseExpr_zero_args, by decide, by decide⟩

/-- C10 witness: the zero-argument expression rule applied at the concrete
token sequence of an empty `+` expression. -/
theorem C10_zero_arity_accepted_witness :
    parseExpr 2 [Token.mk .LPAREN ['('], Token.mk .OP ['+'],
        Token.mk .RPAREN [')']] 0 [] = .ok (.num 0, 3) := by
  have h := C10_zero_arity_accepted.1 0
    [Token.mk .LPAREN ['('], Token.mk .OP ['+'], Token.mk .RPAREN [')']] 0 []
    ['('] ['+'] [')'] (by decide) (by decide) (by decide)
  simpa using h

/-! Soundness of the token matchers: a match splits the input exactly into
the literal and the rest, and the literal is never empty. -/

theorem matchLit_append : ∀ pre s : List Char,
    matchLit pre s = true → s = pre ++ s.drop pre.length := by
  intro pre
  induction pre with
  | nil => intro s _; simp
  | cons p ps ih =>
    intro s h
    cases s with
    | nil => simp [matchLit] at h
    | cons c cs =>
      simp only [matchLit, Bool.and_eq_true, decide_eq_true_eq] at h
      obtain ⟨hpc, hrec⟩ := h
      subst hpc
      have h2 := ih cs hrec
      calc p :: cs = p :: (ps ++ cs.drop ps.length) := by rw [← h2]
        _ = (p :: ps) ++ (p :: cs).drop (p :: ps).length := by simp

theorem matchPre_sound {pre s r : List Char} (h : matchPre pre s = some r) :
    s = pre ++ r := by
  unfold matchPre at h
  split at h
  · rename_i hlit
    injection h with h
    subst h
    exact matchLit_append pre s hlit
  · cases h

theorem matchNumBody_sound {s b r : List Char}
    (h : matchNumBody s = some (b, r)) : s = b ++ r ∧ b ≠ [] := by
  simp only [matchNumBody] at h
  split at h
  · split at h
    · rename_i r2
      split at h
      · cases h
      · injection h with h
        injection h with hb hr
        subst hb; subst hr
        refine ⟨?_, List.cons_ne_nil _ _⟩
        simp [List.takeWhile_append_dropWhile]
    · cases h
  · rename_i hds
    split at h
    · rename_i r2 hr2
      injection h with h
      injection h with hb hr
      subst hb; subst hr
      constructor
      · have hsplit : s.takeWhile isDigitC ++ s.dropWhile isDigitC = s :=
          List.takeWhile_append_dropWhile isDigitC s
        rw [hr2] at hsplit
        rw [List.append_assoc, List.cons_append, List.takeWhile_append_dropWhile]
        exact hsplit.symm
      · simp
    · injection h with h
      injection h with hb hr
      subst hb; subst hr
      refine ⟨(List.takeWhile_append_dropWhile isDigitC s).symm, ?_⟩
      intro hc
      exact hds (by rw [hc]; rfl)

theorem matchExp_sound : ∀ {s : List Char} {e r : List Char},
    matchExp s = (e, r) → s = e ++ r := by
  intro s e r h
  unfold matchExp at h
  split at h
  · split at h
    · split at h
      · rename_i c rs c2 r2 hc he2
        split at h
        · split at h
          · injection h with h1 h2; subst h1; subst h2; rfl
          · injection h with h1 h2
            subst h1; subst h2
            simp [List.takeWhile_append_dropWhile]
        · split at h
          · injection h with h1 h2; subst h1; subst h2; rfl
          · injection h with h1 h2
            subst h1; subst h2
            simp [List.takeWhile_append_dropWhile]
      · injection h with h1 h2; subst h1; subst h2; rfl
    · injection h with h1 h2; subst h1; subst h2; rfl
  · injection h with h1 h2; subst h1; subst h2; rfl

theorem matchNumber_sound {s l r : List Char}
    (h : matchNumber s = some (l, r)) : s = l ++ r ∧ l ≠ [] := by
  unfold matchNumber at h
  split at h
  · rename_i u
    split at h
    · rename_i b r1 hbody
      split at h
      · rename_i e r2 hexp
        injection h with h
        injection h with hl hr
        subst hl; subst hr
        have hu := (matchNumBody_sound hbody).1
        have hr1 := matchExp_sound hexp
        refine ⟨?_, List.cons_ne_nil _ _⟩
        rw [List.cons_append, List.append_assoc, ← hr1, ← hu]
    · cases h
  · split at h
    · rename_i b r1 hbody
      split at h
      · rename_i e r2 hexp
        injection h with h
        injection h with hl hr
        subst hl; subst hr
        have hu := (matchNumBody_sound hbody).1
        have hr1 := matchExp_sound hexp
        refine ⟨?_, ?_⟩
        · rw [List.append_assoc, ← hr1, ← hu]
        · intro hcon
          exact (matchNumBody_sound hbody).2 (List.append_eq_nil.1 hcon).1
    · cases h

set_option maxHeartbeats 2000000 in
theorem matchToken_sound {s : List Char} {t : TokType} {l r : List Char}
    (h : matchToken s = some (t, l, r)) : s = l ++ r ∧ l ≠ [] := by
  unfold matchToken at h
  split at h
  · rename_i l2 r2 hnum
    injection h with h
    injection h with ht h
    injection h with hl hr
    subst hl; subst hr
    exact matchNumber_sound hnum
  · split at h
    · rename_i r2 hpre
      injection h with h
      injection h with ht h
      injection h with hl hr
      subst hl; subst hr
      exact ⟨matchPre_sound hpre, by simp⟩
    · split at h
      · rename_i r2 hpre
        injection h with h
        injection h with ht h
        injection h with hl hr
        subst hl; subst hr
        exact ⟨matchPre_sound hpre, by simp⟩
      · split at h
        · rename_i r2 hpre
          injection h with h
          injection h with ht h
          injection h with hl hr
          subst hl; subst hr
          exact ⟨matchPre_sound hpre, by simp⟩
        · split at h
          · split at h
            · -- nonempty input: the nine single-character ifs
              repeat' split at h
              all_goals
                first
                  | (injection h with h
                     injection h with ht h
                     injection h with hl hr
                     subst hl
                     subst hr
                     subst ht
                     refine ⟨?_, by simp⟩
                     simp_all)
                  | simp at h
            · cases h
          · rename_i hnm
            injection h with h
            injection h with ht h
            injection h with hl hr
            subst hl; subst hr
            refine ⟨(List.takeWhile_append_dropWhile isLowerAZ s).symm, ?_⟩
            intro hc
            exact hnm (by rw [hc]; rfl)

/-! Keyword precedence: the lexer can never emit `abs` or `min` as a `Name`
token. -/

theorem matchToken_abs (cs : List Char) :
    matchToken ('a' :: 'b' :: 's' :: cs) = some (.FUNC, ['a', 'b', 's'], cs) :=
  rfl

theorem matchToken_minword (cs : List Char) :
    matchToken ('m' :: 'i' :: 'n' :: cs) = some (.FUNC, ['m', 'i', 'n'], cs) :=
  rfl

theorem tokenizeAux_no_keyword_names : ∀ (f : Nat) (s : List Char)
    (ts : List Token), tokenizeAux f s = .ok ts → ∀ tk ∈ ts, tk.typ = .NAME →
    tk.val ≠ ['a', 'b', 's'] ∧ tk.val ≠ ['m', 'i', 'n'] := by
  intro f
  induction f with
  | zero =>
    intro s ts h tk hmem htyp
    cases s with
    | nil =>
      simp only [tokenizeAux] at h
      injection h with h
      subst h
      cases hmem
    | cons c cs => simp [tokenizeAux] at h
  | succ f ih =>
    intro s ts h tk hmem htyp
    cases s with
    | nil =>
      simp only [tokenizeAux] at h
      injection h with h
      subst h
      cases hmem
    | cons c cs =>
      simp only [tokenizeAux] at h
      split at h
      · exact ih cs ts h tk hmem htyp
      · split at h
        · cases h
        · rename_i t l r hmt
          split at h
          · cases h
          · rename_i rest hrec
            injection h with h
            subst h
            rcases List.mem_cons.1 hmem with hh | hh
            · subst hh
              have ht : t = .NAME := htyp
              constructor
              · intro habs
                have hl : l = ['a', 'b', 's'] := habs
                have hs := (matchToken_sound hmt).1
                rw [hl] at hs
                rw [hs] at hmt
                rw [show (['a', 'b', 's'] ++ r : List Char) =
                    'a' :: 'b' :: 's' :: r from rfl, matchToken_abs] at hmt
                rw [ht, hl] at hmt
                simp at hmt
              · intro habs
                have hl : l = ['m', 'i', 'n'] := habs
                have hs := (matchToken_sound hmt).1
                rw [hl] at hs
                rw [hs] at hmt
                rw [show (['m', 'i', 'n'] ++ r : List Char) =
                    'm' :: 'i' :: 'n' :: r from rfl, matchToken_minword] at hmt
                rw [ht, hl] at hmt
                simp at hmt
            · exact ih r rest hrec tk hh htyp

/-- C4: the lexer never emits a `Name` token whose literal is exactly `abs`
or `min` (the `Func` alternative is tried first and consumes any input
starting with those letters), so no binding named `abs` or `min` can ever
be produced; parsing `abs := 1;` fails with `SyntaxError` because the
`Func` token appears where `parse_assignment` requires a `Name`. -/
theorem C4_keywords_reserved :
    (∀ (s : List Char) (ts : List Token), tokenize s = .ok ts →
        ∀ tk ∈ ts, tk.typ = .NAME →
        tk.val ≠ "abs".toList ∧ tk.val ≠ "min".toList) ∧
    compileText "abs := 1;" = .error .syntaxError :=
  ⟨fun s ts h => tokenizeAux_no_keyword_names s.length s ts h, by decide⟩

/-- C4 witness: the no-keyword-Name property applied to the token list of a
concrete input. -/
theorem C4_keywords_reserved_witness :
    Token.val (Token.mk .NAME ['x']) ≠ "abs".toList ∧
    Token.val (Token.mk .NAME ['x']) ≠ "min".toList :=
  C4_keywords_reserved.1 ['x'] [Token.mk .NAME ['x']] (by decide)
    (Token.mk .NAME ['x']) (by simp) (by decide)

/-! Stability of the matchers under suffix replacement: a matched literal,
followed by a space or by nothing, matches again as the same literal. -/

theorem takeWhile_append_exact {p : Char → Bool} :
    ∀ a bs : List Char, (∀ c ∈ a, p c = true) →
    (∀ c, bs.head? = some c → p c = false) →
    (a ++ bs).takeWhile p = a ∧ (a ++ bs).dropWhile p = bs := by
  intro a
  induction a with
  | nil =>
    intro bs _ h2
    cases bs with
    | nil => simp
    | cons c cs =>
      simp [List.takeWhile_cons, List.dropWhile_cons, h2 c rfl]
  | cons x xs ih =>
    intro bs h1 h2
    have hx := h1 x (List.mem_cons_self x xs)
    obtain ⟨ht, hd⟩ := ih bs (fun c hc => h1 c (List.mem_cons_of_mem x hc)) h2
    simp [List.takeWhile_cons, List.dropWhile_cons, hx, ht, hd]

theorem matchNumBody_pad {s b r : List Char}
    (h : matchNumBody s = some (b, r)) (v : List Char)
    (hv : ∀ c, v.head? = some c → isDigitC c = false ∧ c ≠ '.') :
    matchNumBody (b ++ v) = some (b, v) := by
  have hstop : ∀ c, v.head? = some c → isDigitC c = false :=
    fun c hc => (hv c hc).1
  simp only [matchNumBody] at h
  split at h
  · split at h
    · rename_i r2 hemp
      split at h
      · cases h
      · rename_i hfs
        injection h with h
        injection h with hb hr
        subst hb
        obtain ⟨ht, hd⟩ := takeWhile_append_exact (r2.takeWhile isDigitC) v
          (fun c hc => List.mem_takeWhile_imp hc) hstop
        simp [matchNumBody, List.takeWhile_cons, List.dropWhile_cons,
          show isDigitC '.' = false from rfl, ht, hd, hfs]
    · cases h
  · rename_i hds
    split at h
    · rename_i r2 hr2
      injection h with h
      injection h with hb hr
      subst hb
      have hdsd : ∀ c ∈ s.takeWhile isDigitC, isDigitC c = true :=
        fun c hc => List.mem_takeWhile_imp hc
      have hfsd : ∀ c ∈ r2.takeWhile isDigitC, isDigitC c = true :=
        fun c hc => List.mem_takeWhile_imp hc
      obtain ⟨ht2, hd2⟩ := takeWhile_append_exact (r2.takeWhile isDigitC) v
        hfsd hstop
      have hdot : ∀ c : Char,
          ('.' :: (r2.takeWhile isDigitC ++ v)).head? = some c →
          isDigitC c = false := by
        intro c hc
        injection hc with hc
        rw [← hc]
        exact rfl
      obtain ⟨ht1, hd1⟩ := takeWhile_append_exact (s.takeWhile isDigitC)
        ('.' :: (r2.takeWhile isDigitC ++ v)) hdsd hdot
      have hassoc : s.takeWhile isDigitC ++ '.' :: r2.takeWhile isDigitC ++ v =
          s.takeWhile isDigitC ++ ('.' :: (r2.takeWhile isDigitC ++ v)) := by
        simp
      rw [hassoc]
      simp only [matchNumBody, ht1, hd1]
      simp [hds, ht2, hd2]
    · injection h with h
      injection h with hb hr
      subst hb
      have hdsd : ∀ c ∈ s.takeWhile isDigitC, isDigitC c = true :=
        fun c hc => List.mem_takeWhile_imp hc
      obtain ⟨ht, hd⟩ := takeWhile_append_exact (s.takeWhile isDigitC) v
        hdsd hstop
      simp only [matchNumBody, ht, hd]
      cases hvv : v with
      | nil => simp [hds]
      | cons c cs =>
        have := hv c (by rw [hvv]; rfl)
        simp [hds, this.2]

theorem matchExp_head {s e r : List Char} (h : matchExp s = (e, r)) :
    e = [] ∨ ∃ t, e = 'e' :: t ∨ e = 'E' :: t := by
  unfold matchExp at h
  split at h
  · split at h
    · rename_i c rs hc
      split at h
      · split at h
        · split at h
          · injection h with h1 _; subst h1; exact Or.inl rfl
          · injection h with h1 _
            subst h1
            rcases hc with hc | hc
            · exact Or.inr ⟨_, Or.inl (by rw [hc])⟩
            · exact Or.inr ⟨_, Or.inr (by rw [hc])⟩
        · split at h
          · injection h with h1 _; subst h1; exact Or.inl rfl
          · injection h with h1 _
            subst h1
            rcases hc with hc | hc
            · exact Or.inr ⟨_, Or.inl (by rw [hc])⟩
            · exact Or.inr ⟨_, Or.inr (by rw [hc])⟩
      · injection h with h1 _; subst h1; exact Or.inl rfl
    · injection h with h1 _; subst h1; exact Or.inl rfl
  · injection h with h1 _; subst h1; exact Or.inl rfl

theorem matchExp_pad {s e r : List Char} (h : matchExp s = (e, r))
    (v : List Char)
    (hv : ∀ c, v.head? = some c → isDigitC c = false ∧ c ≠ 'e' ∧ c ≠ 'E' ∧
        c ≠ '+' ∧ c ≠ '-') :
    matchExp (e ++ v) = (e, v) := by
  have hstop : ∀ c, v.head? = some c → isDigitC c = false :=
    fun c hc => (hv c hc).1
  unfold matchExp at h
  split at h
  · split at h
    · rename_i c rs hc
      split at h
      · rename_i c2 r2
        split at h
        · rename_i hc2
          split at h
          · injection h with h1 h2
            subst h1; subst h2
            cases hvv : v with
            | nil => simp [matchExp]
            | cons d ds =>
              have hd := hv d (by rw [hvv]; rfl)
              simp [matchExp, hd.2.1, hd.2.2.1]
          · rename_i hds
            injection h with h1 h2
            subst h1; subst h2
            obtain ⟨ht, hd⟩ := takeWhile_append_exact (r2.takeWhile isDigitC) v
              (fun c hc => List.mem_takeWhile_imp hc) hstop
            rcases hc with hc | hc <;> rcases hc2 with hc2 | hc2 <;>
              (subst hc; subst hc2;
               simp [matchExp, List.cons_append, ht, hd, hds])
        · rename_i hc2
          split at h
          · injection h with h1 h2
            subst h1; subst h2
            cases hvv : v with
            | nil => simp [matchExp]
            | cons d ds =>
              have hd := hv d (by rw [hvv]; rfl)
              simp [matchExp, hd.2.1, hd.2.2.1]
          · rename_i hds
            injection h with h1 h2
            subst h1; subst h2
            obtain ⟨ht, hd⟩ := takeWhile_append_exact
              ((c2 :: r2).takeWhile isDigitC) v
              (fun c hc => List.mem_takeWhile_imp hc) hstop
            have hc2d : isDigitC c2 = true := by
              by_contra hcon
              simp only [List.takeWhile_cons, Bool.not_eq_true] at hds ⊢
              rw [Bool.not_eq_true] at hcon
              rw [hcon] at hds
              simp at hds
            rcases hc with hc | hc <;>
              (subst hc
               simp only [List.takeWhile_cons, hc2d, if_true] at ht hd hds ⊢
               have hc2ne : (c2 = '+' ∨ c2 = '-') = False := by
                 simp only [eq_iff_iff, iff_false]
                 intro hcon
                 rcases hcon with hcon | hcon <;> (rw [hcon] at hc2d; cases hc2d)
               simp [matchExp, List.cons_append, ht, hd, hds, hc2ne,
                 List.takeWhile_cons, hc2d]
               exact takeWhile_append_exact (r2.takeWhile isDigitC) v
                 (fun c hc => List.mem_takeWhile_imp hc) hstop)
      · injection h with h1 h2
        subst h1; subst h2
        cases hvv : v with
        | nil => simp [matchExp]
        | cons d ds =>
          have hd := hv d (by rw [hvv]; rfl)
          simp [matchExp, hd.2.1, hd.2.2.1]
    · injection h with h1 h2
      subst h1; subst h2
      cases hvv : v with
      | nil => simp [matchExp]
      | cons d ds =>
        have hd := hv d (by rw [hvv]; rfl)
        simp [matchExp, hd.2.1, hd.2.2.1]
  · injection h with h1 h2
    subst h1; subst h2
    cases hvv : v with
    | nil => simp [matchExp]
    | cons d ds =>
      have hd := hv d (by rw [hvv]; rfl)
      simp [matchExp, hd.2.1, hd.2.2.1]

theorem matchNumBody_head {s b r : List Char}
    (h : matchNumBody s = some (b, r)) :
    ∃ c b2, b = c :: b2 ∧ (isDigitC c = true ∨ c = '.') := by
  simp only [matchNumBody] at h
  split at h
  · split at h
    · rename_i r2 hemp
      split at h
      · cases h
      · injection h with h
        injection h with hb hr
        exact ⟨'.', r2.takeWhile isDigitC, hb.symm, Or.inr rfl⟩
    · cases h
  · rename_i hds
    have hne : s.takeWhile isDigitC ≠ [] := fun hc => hds (by rw [hc]; rfl)
    obtain ⟨c, b2, hcons⟩ := List.exists_cons_of_ne_nil hne
    have hcd : isDigitC c = true := by
      have hm : c ∈ s.takeWhile isDigitC := by
        rw [hcons]; exact List.mem_cons_self c b2
      exact List.mem_takeWhile_imp hm
    split at h
    · rename_i r2 hr2
      injection h with h
      injection h with hb hr
      refine ⟨c, b2 ++ '.' :: r2.takeWhile isDigitC, ?_, Or.inl hcd⟩
      rw [← hb, hcons]
      rfl
    · injection h with h
      injection h with hb hr
      exact ⟨c, b2, by rw [← hb, hcons], Or.inl hcd⟩

theorem matchNumber_pad {s l r : List Char}
    (h : matchNumber s = some (l, r)) (v : List Char)
    (hv : ∀ c, v.head? = some c → isDigitC c = false ∧ c ≠ '.' ∧ c ≠ 'e' ∧
        c ≠ 'E' ∧ c ≠ '+' ∧ c ≠ '-') :
    matchNumber (l ++ v) = some (l, v) := by
  have hvb : ∀ c, v.head? = some c → isDigitC c = false ∧ c ≠ '.' :=
    fun c hc => ⟨(hv c hc).1, (hv c hc).2.1⟩
  have hve : ∀ c, v.head? = some c → isDigitC c = false ∧ c ≠ 'e' ∧ c ≠ 'E' ∧
      c ≠ '+' ∧ c ≠ '-' := fun c hc => ⟨(hv c hc).1, (hv c hc).2.2⟩
  unfold matchNumber at h
  split at h
  · rename_i u
    split at h
    · rename_i b r1 hbody
      split at h
      · rename_i e r2 hexp
        injection h with h
        injection h with hl hr
        subst hl; subst hr
        have hbe : ∀ c2, (e ++ v).head? = some c2 →
            isDigitC c2 = false ∧ c2 ≠ '.' := by
          intro c2 hc2
          rcases matchExp_head hexp with he | ⟨t, he | he⟩
          · rw [he] at hc2
            simp only [List.nil_append] at hc2
            exact hvb c2 hc2
          · rw [he] at hc2
            simp only [List.cons_append, List.head?_cons] at hc2
            injection hc2 with hc2
            subst hc2
            exact ⟨rfl, by decide⟩
          · rw [he] at hc2
            simp only [List.cons_append, List.head?_cons] at hc2
            injection hc2 with hc2
            subst hc2
            exact ⟨rfl, by decide⟩
        have hB := matchNumBody_pad hbody (e ++ v) hbe
        have hE := matchExp_pad hexp v hve
        simp only [List.cons_append, List.append_assoc]
        simp [matchNumber, hB, hE]
    · cases h
  · split at h
    · rename_i b r1 hbody
      split at h
      · rename_i e r2 hexp
        injection h with h
        injection h with hl hr
        subst hl; subst hr
        obtain ⟨c, b2, hcons, hcd⟩ := matchNumBody_head hbody
        have hcne : c ≠ '-' := by
          rcases hcd with hcd | hcd
          · intro hcc; rw [hcc] at hcd; cases hcd
          · intro hcc; rw [hcc] at hcd; cases hcd
        have hbe : ∀ c2, (e ++ v).head? = some c2 →
            isDigitC c2 = false ∧ c2 ≠ '.' := by
          intro c2 hc2
          rcases matchExp_head hexp with he | ⟨t, he | he⟩
          · rw [he] at hc2
            simp only [List.nil_append] at hc2
            exact hvb c2 hc2
          · rw [he] at hc2
            simp only [List.cons_append, List.head?_cons] at hc2
            injection hc2 with hc2
            subst hc2
            exact ⟨rfl, by decide⟩
          · rw [he] at hc2
            simp only [List.cons_append, List.head?_cons] at hc2
            injection hc2 with hc2
            subst hc2
            exact ⟨rfl, by decide⟩
        have hB := matchNumBody_pad hbody (e ++ v) hbe
        have hE := matchExp_pad hexp v hve
        rw [List.append_assoc, hcons, List.cons_append]
        unfold matchNumber
        split
        · rename_i u hu
          injection hu with hc1 _
          exact absurd hc1 hcne
        · rw [← List.cons_append, ← hcons, hB]
          simp [hE]
    · cases h

/-- A suffix that is empty or starts with a single separating space. -/
def SpacePad (v : List Char) : Prop := v = [] ∨ ∃ r2, v = ' ' :: r2

theorem spacePad_head {v : List Char} (hsp : SpacePad v) :
    ∀ c, v.head? = some c → c = ' ' := by
  rcases hsp with rfl | ⟨r2, rfl⟩
  · intro c hc; cases hc
  · intro c hc; injection hc with hc; exact hc.symm

theorem ne_of_lower_notlower {c d : Char} (hc : isLowerAZ c = true)
    (hd : isLowerAZ d = false) : c ≠ d := by
  intro he
  rw [he] at hc
  rw [hc] at hd
  cases hd

theorem lower_not_digit {c : Char} (h : isLowerAZ c = true) :
    isDigitC c = false := by
  simp only [isLowerAZ, Bool.and_eq_true, decide_eq_true_eq] at h
  have h2 : ¬(c.toNat ≤ 57) := by omega
  simp [isDigitC, h2]

theorem matchNumBody_none_cons {c : Char} (h1 : isDigitC c = false)
    (h2 : c ≠ '.') (xs : List Char) : matchNumBody (c :: xs) = none := by
  simp only [matchNumBody, List.takeWhile_cons, h1, Bool.false_eq_true,
    if_false, List.isEmpty_nil, if_true]
  split
  · rename_i r2 hu
    injection hu with hc _
    exact absurd hc h2
  · rfl

theorem matchNumber_none_head {c : Char} (h1 : isDigitC c = false)
    (h2 : c ≠ '.') (h3 : c ≠ '-') (xs : List Char) :
    matchNumber (c :: xs) = none := by
  unfold matchNumber
  split
  · rename_i u hu
    injection hu with hc _
    exact absurd hc h3
  · rw [matchNumBody_none_cons h1 h2]

theorem matchPre_head_ne {p c : Char} (h : p ≠ c) (ps xs : List Char) :
    matchPre (p :: ps) (c :: xs) = none := by
  simp [matchPre, matchLit, h]

theorem matchPre_none {pre s : List Char} (h : matchPre pre s = none) :
    matchLit pre s = false := by
  unfold matchPre at h
  split at h
  · cases h
  · rename_i hc
    cases hb : matchLit pre s with
    | false => rfl
    | true => exact absurd hb hc

theorem matchLit3_pad {k1 k2 k3 : Char} {l u v : List Char}
    (hk1 : isLowerAZ k1 = true) (hk2 : isLowerAZ k2 = true)
    (hk3 : isLowerAZ k3 = true)
    (hv : ∀ c, v.head? = some c → isLowerAZ c = false)
    (h : matchLit [k1, k2, k3] (l ++ u) = false) :
    matchLit [k1, k2, k3] (l ++ v) = false := by
  match l with
  | [] =>
    cases v with
    | nil => rfl
    | cons c cs =>
      have hne := ne_of_lower_notlower hk1 (hv c rfl)
      simp [matchLit, hne]
  | [c1] =>
    cases v with
    | nil => simp [matchLit]
    | cons c cs =>
      have hne := ne_of_lower_notlower hk2 (hv c rfl)
      simp [matchLit, hne]
  | [c1, c2] =>
    cases v with
    | nil => simp [matchLit]
    | cons c cs =>
      have hne := ne_of_lower_notlower hk3 (hv c rfl)
      simp [matchLit, hne]
  | c1 :: c2 :: c3 :: rest =>
    simp only [List.cons_append, matchLit, List.nil_append] at h ⊢
    simpa using h

/-- A token is well-formed for relexing: followed by a space or by the end
of input, its literal matches again with the same kind. -/
def GoodTok (tk : Token) : Prop :=
  ∀ v, SpacePad v → matchToken (tk.val ++ v) = some (tk.typ, tk.val, v)

set_option maxHeartbeats 2000000 in
theorem matchToken_good {s : List Char} {t : TokType} {l r : List Char}
    (h : matchToken s = some (t, l, r)) : GoodTok ⟨t, l⟩ := by
  unfold matchToken at h
  split at h
  · rename_i l2 r2 hnum
    injection h with h
    injection h with ht h
    injection h with hl hr
    subst hl; subst hr; subst ht
    intro v hsp
    have hfacts : ∀ c, v.head? = some c → isDigitC c = false ∧ c ≠ '.' ∧
        c ≠ 'e' ∧ c ≠ 'E' ∧ c ≠ '+' ∧ c ≠ '-' := by
      intro c hc
      have hce := spacePad_head hsp c hc
      subst hce
      exact ⟨rfl, by decide, by decide, by decide, by decide, by decide⟩
    have hN := matchNumber_pad hnum v hfacts
    simp [matchToken, hN]
  · split at h
    · rename_i r2 hpre
      injection h with h
      injection h with ht h
      injection h with hl hr
      subst hl; subst hr; subst ht
      intro v hsp
      rcases hsp with rfl | ⟨r3, rfl⟩ <;> rfl
    · split at h
      · rename_i r2 hpre
        injection h with h
        injection h with ht h
        injection h with hl hr
        subst hl; subst hr; subst ht
        intro v hsp
        rcases hsp with rfl | ⟨r3, rfl⟩ <;> rfl
      · split at h
        · rename_i r2 hpre
          injection h with h
          injection h with ht h
          injection h with hl hr
          subst hl; subst hr; subst ht
          intro v hsp
          rcases hsp with rfl | ⟨r3, rfl⟩ <;> rfl
        · split at h
          · split at h
            · repeat' split at h
              all_goals first
                | (injection h with h
                   injection h with ht h
                   injection h with hl hr
                   subst hl
                   subst hr
                   subst ht
                   intro v hsp
                   rcases hsp with rfl | ⟨r3, rfl⟩ <;> rfl)
                | simp at h
            · cases h
          · rename_i a1 hnum0 a2 hassign0 a3 habs0 a4 hmin0 hnm
            injection h with h
            injection h with ht h
            injection h with hl hr
            subst hl; subst hr; subst ht
            intro v hsp
            have hvlow : ∀ c, v.head? = some c → isLowerAZ c = false := by
              intro c hc
              have hce := spacePad_head hsp c hc
              subst hce
              rfl
            have hlmem : ∀ c ∈ s.takeWhile isLowerAZ, isLowerAZ c = true :=
              fun c hc => List.mem_takeWhile_imp hc
            have hlne : s.takeWhile isLowerAZ ≠ [] :=
              fun hc => hnm (by rw [hc]; rfl)
            obtain ⟨c0, l2, hcons⟩ := List.exists_cons_of_ne_nil hlne
            have hc0 : isLowerAZ c0 = true :=
              hlmem c0 (by rw [hcons]; exact List.mem_cons_self c0 l2)
            have hnumv : matchNumber (s.takeWhile isLowerAZ ++ v) = none := by
              rw [hcons, List.cons_append]
              exact matchNumber_none_head (lower_not_digit hc0)
                (ne_of_lower_notlower hc0 (by decide))
                (ne_of_lower_notlower hc0 (by decide)) _
            have hassv : matchPre [':', '='] (s.takeWhile isLowerAZ ++ v) =
                none := by
              rw [hcons, List.cons_append]
              exact matchPre_head_ne
                (ne_of_lower_notlower hc0 (by decide)).symm _ _
            have habsv : matchPre ['a', 'b', 's']
                (s.takeWhile isLowerAZ ++ v) = none := by
              have hfalse : matchLit ['a', 'b', 's']
                  (s.takeWhile isLowerAZ ++ v) = false := by
                apply matchLit3_pad (by decide) (by decide) (by decide) hvlow
                  (u := s.dropWhile isLowerAZ)
                rw [List.takeWhile_append_dropWhile]
                exact matchPre_none habs0
              simp [matchPre, hfalse]
            have hminv : matchPre ['m', 'i', 'n']
                (s.takeWhile isLowerAZ ++ v) = none := by
              have hfalse : matchLit ['m', 'i', 'n']
                  (s.takeWhile isLowerAZ ++ v) = false := by
                apply matchLit3_pad (by decide) (by decide) (by decide) hvlow
                  (u := s.dropWhile isLowerAZ)
                rw [List.takeWhile_append_dropWhile]
                exact matchPre_none hmin0
              simp [matchPre, hfalse]
            obtain ⟨ht2, hd2⟩ := takeWhile_append_exact (s.takeWhile isLowerAZ)
              v hlmem hvlow
            simp [matchToken, hnumv, hassv, habsv, hminv, ht2, hd2, hnm]

theorem tokenizeAux_good : ∀ (f : Nat) (s : List Char) (ts : List Token),
    tokenizeAux f s = .ok ts → ∀ tk ∈ ts, GoodTok tk := by
  intro f
  induction f with
  | zero =>
    intro s ts h tk hmem
    cases s with
    | nil =>
      simp only [tokenizeAux] at h
      injection h with h
      subst h
      cases hmem
    | cons c cs => simp [tokenizeAux] at h
  | succ f ih =>
    intro s ts h tk hmem
    cases s with
    | nil =>
      simp only [tokenizeAux] at h
      injection h with h
      subst h
      cases hmem
    | cons c cs =>
      simp only [tokenizeAux] at h
      split at h
      · exact ih cs ts h tk hmem
      · split at h
        · cases h
        · rename_i t l r hmt
          split at h
          · cases h
          · rename_i rest hrec
            injection h with h
            subst h
            rcases List.mem_cons.1 hmem with hh | hh
            · subst hh
              exact matchToken_good hmt
            · exact ih r rest hrec tk hh

theorem goodTok_val_ne_nil {tk : Token} (h : GoodTok tk) : tk.val ≠ [] := by
  intro hc
  have h0 := h [] (Or.inl rfl)
  rw [hc] at h0
  exact Option.noConfusion h0

set_option maxHeartbeats 1000000 in
theorem matchToken_space_none {c : Char} (hsp : isSpaceC c = true)
    (xs : List Char) : matchToken (c :: xs) = none := by
  have htn : c.toNat = 32 ∨ (9 ≤ c.toNat ∧ c.toNat ≤ 13) := by
    simpa [isSpaceC] using hsp
  have tnne : ∀ d : Char, c.toNat ≠ d.toNat → c ≠ d :=
    fun d hne he => hne (congrArg Char.toNat he)
  have hdig : isDigitC c = false := by simp [isDigitC]; omega
  have hlow : isLowerAZ c = false := by simp [isLowerAZ]; omega
  have hdot : c ≠ '.' := tnne _ (by rw [show ('.').toNat = 46 from rfl]; omega)
  have hmins : c ≠ '-' := tnne _ (by rw [show ('-').toNat = 45 from rfl]; omega)
  have hcol : c ≠ ':' := tnne _ (by rw [show (':').toNat = 58 from rfl]; omega)
  have hach : c ≠ 'a' := tnne _ (by rw [show ('a').toNat = 97 from rfl]; omega)
  have hmch : c ≠ 'm' := tnne _ (by rw [show ('m').toNat = 109 from rfl]; omega)
  have hlp : c ≠ '(' := tnne _ (by rw [show ('(').toNat = 40 from rfl]; omega)
  have hrp : c ≠ ')' := tnne _ (by rw [show (')').toNat = 41 from rfl]; omega)
  have hlb : c ≠ '[' := tnne _ (by rw [show ('[').toNat = 91 from rfl]; omega)
  have hrb : c ≠ ']' := tnne _ (by rw [show (']').toNat = 93 from rfl]; omega)
  have hcom : c ≠ ',' := tnne _ (by rw [show (',').toNat = 44 from rfl]; omega)
  have hsem : c ≠ ';' := tnne _ (by rw [show (';').toNat = 59 from rfl]; omega)
  have hplus : c ≠ '+' := tnne _ (by rw [show ('+').toNat = 43 from rfl]; omega)
  simp [matchToken, matchNumber_none_head hdig hdot hmins,
    matchPre_head_ne (Ne.symm hcol), matchPre_head_ne (Ne.symm hach),
    matchPre_head_ne (Ne.symm hmch), List.takeWhile_cons, hlow,
    hlp, hrp, hlb, hrb, hcol, hcom, hsem, hplus, hmins]

theorem goodTok_not_space {tk : Token} (h : GoodTok tk) {c : Char}
    {cs : List Char} (hval : tk.val = c :: cs) : isSpaceC c = false := by
  by_contra hcon
  rw [Bool.not_eq_false] at hcon
  have h0 := h [] (Or.inl rfl)
  rw [hval] at h0
  rw [show (c :: cs) ++ ([] : List Char) = c :: cs from by simp] at h0
  rw [matchToken_space_none hcon] at h0
  cases h0

/-- The concatenation of the token literals with single separating spaces
(the claim's output representation of a token sequence). -/
def joinLits : List Token → List Char
  | [] => []
  | [tk] => tk.val
  | tk :: rest => tk.val ++ ' ' :: joinLits rest

theorem tokenizeAux_relex : ∀ (ts : List Token) (f : Nat),
    (∀ tk ∈ ts, GoodTok tk) → 2 * ts.length ≤ f + 1 →
    tokenizeAux f (joinLits ts) = .ok ts := by
  intro ts
  induction ts with
  | nil => intro f _ _; cases f <;> rfl
  | cons tk rest ih =>
    intro f hgood hfuel
    have hg := hgood tk (List.mem_cons_self tk rest)
    obtain ⟨c, cs, hval⟩ := List.exists_cons_of_ne_nil (goodTok_val_ne_nil hg)
    have hns := goodTok_not_space hg hval
    obtain ⟨f1, rfl⟩ : ∃ f1, f = f1 + 1 := ⟨f - 1, by simp at hfuel; omega⟩
    cases rest with
    | nil =>
      have h0 := hg [] (Or.inl rfl)
      rw [show joinLits [tk] = tk.val from rfl, hval]
      rw [hval, List.append_nil] at h0
      simp only [tokenizeAux, hns, Bool.false_eq_true, if_false, h0]
      rw [← hval]
    | cons tk2 rest2 =>
      have h0 := hg (' ' :: joinLits (tk2 :: rest2))
        (Or.inr ⟨joinLits (tk2 :: rest2), rfl⟩)
      rw [hval] at h0
      rw [show joinLits (tk :: tk2 :: rest2) =
        tk.val ++ ' ' :: joinLits (tk2 :: rest2) from rfl, hval]
      rw [List.cons_append] at h0 ⊢
      simp only [tokenizeAux, hns, Bool.false_eq_true, if_false, h0]
      obtain ⟨f2, rfl⟩ : ∃ f2, f1 = f2 + 1 := by
        refine ⟨f1 - 1, ?_⟩
        simp [List.length_cons] at hfuel
        omega
      have hrec := ih f2 (fun tk3 h3 => hgood tk3 (List.mem_cons_of_mem tk h3))
        (by simp [List.length_cons] at hfuel ⊢; omega)
      rw [show tokenizeAux (f2 + 1) (' ' :: joinLits (tk2 :: rest2)) =
        tokenizeAux f2 (joinLits (tk2 :: rest2)) from by
          simp [tokenizeAux, show isSpaceC ' ' = true from rfl]]
      rw [hrec, ← hval]

theorem joinLits_length : ∀ ts : List Token, (∀ tk ∈ ts, GoodTok tk) →
    2 * ts.length ≤ (joinLits ts).length + 1 := by
  intro ts
  induction ts with
  | nil => intro _; simp
  | cons tk rest ih =>
    intro hgood
    have hv : 1 ≤ tk.val.length :=
      List.length_pos.2 (goodTok_val_ne_nil (hgood tk (List.mem_cons_self tk rest)))
    cases rest with
    | nil =>
      simp only [joinLits, List.length_cons, List.length_nil]
      omega
    | cons tk2 rest2 =>
      have ihr := ih (fun tk3 h3 => hgood tk3 (List.mem_cons_of_mem tk h3))
      simp only [joinLits, List.length_append, List.length_cons] at ihr ⊢
      omega

/-- C9: tokenize is idempotent on its own output representation: whenever
`tokenize` maps an input to a token sequence, joining that sequence's
literals with single spaces and re-lexing yields a token sequence with the
same sequence of token kinds (in fact the very same tokens). -/
theorem C9_tokenize_idempotent :
    ∀ (s : List Char) (ts : List Token), tokenize s = .ok ts →
    ∃ ts', tokenize (joinLits ts) = .ok ts' ∧
      ts'.map Token.typ = ts.map Token.typ := by
  intro s ts h
  have hgood := tokenizeAux_good s.length s ts h
  refine ⟨ts, ?_, rfl⟩
  show tokenizeAux (joinLits ts).length (joinLits ts) = .ok ts
  exact tokenizeAux_relex ts (joinLits ts).length hgood
    (by have := joinLits_length ts hgood; omega)

/-- C9 witness: the idempotence applied to the tokens of a concrete input
(with its internal whitespace normalized to single spaces by the join). -/
theorem C9_tokenize_idempotent_witness :
    ∃ ts', tokenize (joinLits [Token.mk .NAME ['a'], Token.mk .ASSIGN [':', '='],
        Token.mk .NUMBER ['1'], Token.mk .SEMICOLON [';']]) = .ok ts' ∧
      ts'.map Token.typ =
        [Token.mk .NAME ['a'], Token.mk .ASSIGN [':', '='],
         Token.mk .NUMBER ['1'], Token.mk .SEMICOLON [';']].map Token.typ :=
  C9_tokenize_idempotent "a  :=   1;".toList
    [Token.mk .NAME ['a'], Token.mk .ASSIGN [':', '='],
     Token.mk .NUMBER ['1'], Token.mk .SEMICOLON [';']] (by decide)

end Dz
